import Mathlib

/-!
Shallow embedding of `pretalx2tex.py` (conference-schedule → LaTeX/txt/wordlist
converter) and verification of its specification claims.

Text is modelled as `List Char`; Python `str` operations are translated
one-for-one.  Machine-level concerns do not arise (the program only manipulates
text and integer room ranks).  `String`-level wrappers are provided for concrete
statements.
-/

namespace Pretalx

/-- Characters stripped once from the beginning and once from the end of a token
in `get_wordlist` (the Python tuple
`("\"", "'", ".", ",", ";", ":", "[", "]", "(", ")", "-", "*")`).
The double quote (code 34) and apostrophe (code 39) are written numerically. -/
def punctChars : List Char :=
  [Char.ofNat 34, Char.ofNat 39, '.', ',', ';', ':', '[', ']', '(', ')', '-', '*']

/-- Membership test in `punctChars`, the `word[0] in (...)` check of the source. -/
def isPunct (c : Char) : Bool := punctChars.contains c

/-- Character class of `RE_VALID_WORD = re.compile(r'^[-A-ZÄÖÜäöüa-z]\x7b2,\x7d$')`:
hyphen, `A`–`Z`, the six umlaut letters, `a`–`z`. -/
def isWordChar (c : Char) : Bool :=
  c = '-' || ('A' ≤ c && c ≤ 'Z') ||
  c ∈ ['Ä', 'Ö', 'Ü', 'ä', 'ö', 'ü'] ||
  ('a' ≤ c && c ≤ 'z')

/-- `RE_VALID_WORD.match(word) is not None`.  The pattern is anchored on both
sides with a `\x7b2,\x7d` counted repetition, so it holds exactly of strings of
length ≥ 2 all of whose characters lie in the class.  (The `$` anchor would also
accept a single trailing newline, but tokens reaching this test contain no
newline: `get_wordlist` has already replaced every newline by a space.) -/
def RE_VALID_WORD_matches (w : List Char) : Bool :=
  decide (2 ≤ w.length) && w.all isWordChar

/-- Python `s.split(sep)` for a one-character separator: splits at every
occurrence, keeping empty pieces. -/
def splitOnChar (sep : Char) : List Char → List (List Char)
  | [] => [[]]
  | c :: rest =>
    if c = sep then [] :: splitOnChar sep rest
    else
      match splitOnChar sep rest with
      | [] => [[c]]
      | w :: ws => (c :: w) :: ws

/-- One-character strip at the front of a token:
`if word[0] in (...): word = word[1:]`. -/
def stripFront (w : List Char) : List Char :=
  match w with
  | c :: rest => if isPunct c then rest else c :: rest
  | [] => []

/-- One-character strip at the back of the (possibly already front-stripped)
token: `if word[-1] in (...): word = word[:-1]`. -/
def stripBack (w : List Char) : List Char :=
  match w.getLast? with
  | some c => if isPunct c then w.dropLast else w
  | none => w

/-- Body of the token loop of `get_wordlist`: length test, one-character strip
at front and back, validity test.  Returns the retained (possibly stripped)
token, or `none` when the token is skipped. -/
def processWord (w : List Char) : Option (List Char) :=
  if w.length < 2 then none
  else if RE_VALID_WORD_matches (stripBack (stripFront w)) then
    some (stripBack (stripFront w))
  else none

/-- `get_wordlist(text)` of the source: drop `\r`, turn `\n` into spaces, split
on single spaces, then filter/strip each token via `processWord`. -/
def get_wordlist (text : List Char) : List (List Char) :=
  let words := (text.filter (fun c => c ≠ '\r')).map (fun c => if c = '\n' then ' ' else c)
  (splitOnChar ' ' words).filterMap processWord

/-- String-level wrapper of `get_wordlist`. -/
def get_wordlistS (s : String) : List String :=
  (get_wordlist s.data).map (fun w => String.mk w)

end Pretalx

namespace Pretalx

theorem processWord_valid {w w' : List Char} (h : processWord w = some w') :
    2 ≤ w'.length ∧ ∀ c ∈ w', isWordChar c = true := by
  unfold processWord at h
  split at h
  · exact absurd h (by simp)
  · split at h
    · rename_i hvalid
      cases h
      unfold RE_VALID_WORD_matches at hvalid
      simp only [Bool.and_eq_true, decide_eq_true_eq, List.all_eq_true] at hvalid
      exact ⟨hvalid.1, hvalid.2⟩
    · exact absurd h (by simp)

end Pretalx

/-- C1 counterexample: on `"Hello, world! A1 xy"` the extractor does NOT return
`["Hello", "world"]` — the exclamation mark is not among the stripped
punctuation characters, so `"world!"` fails the letters-only pattern and is
dropped, while the two-letter token `"xy"` is retained. -/
theorem c1_counterexample :
    Pretalx.get_wordlistS "Hello, world! A1 xy" ≠ ["Hello", "world"] := by
  decide

/-- C1 (amended): for the input string `"Hello, world! A1 xy"` the word
extractor returns exactly `["Hello", "xy"]`: the trailing comma of `"Hello,"`
is stripped; `"world!"` keeps its `!` (not a stripped character) and is rejected
by the letters-only pattern; `"A1"` is rejected by the letters-only pattern;
the two-letter `"xy"` passes the length-2 minimum and is kept. -/
theorem c1_amended :
    Pretalx.get_wordlistS "Hello, world! A1 xy" = ["Hello", "xy"] := by
  decide

/-- C10: the word extractor is total by construction and every element of its
result has length at least 2 and consists only of Latin letters, the umlaut
characters ÄÖÜäöü, and hyphen (the character class of `RE_VALID_WORD`, which is
the final filter every retained token must pass). -/
theorem c10_wordlist_valid (text : List Char) :
    ∀ w ∈ Pretalx.get_wordlist text,
      2 ≤ w.length ∧ ∀ c ∈ w, Pretalx.isWordChar c = true := by
  intro w hw
  unfold Pretalx.get_wordlist at hw
  obtain ⟨w0, _, h0⟩ := List.mem_filterMap.mp hw
  exact Pretalx.processWord_valid h0

/-- Witness for C10 at the concrete input `"ab -cd!"`. -/
theorem c10_witness :
    2 ≤ ("ab".data).length ∧ ∀ c ∈ "ab".data, Pretalx.isWordChar c = true :=
  c10_wordlist_valid "ab -cd!".data "ab".data (by decide)

namespace Pretalx

/-- Double quote, apostrophe and backtick characters, written numerically. -/
def quoteChar : Char := Char.ofNat 34

/-- Apostrophe character (code 39). -/
def aposChar : Char := Char.ofNat 39

/-- Backtick character (code 96). -/
def backtickChar : Char := Char.ofNat 96

/-- Opening curly brace character (code 123). -/
def lbraceChar : Char := Char.ofNat 123

/-- Closing curly brace character (code 125). -/
def rbraceChar : Char := Char.ofNat 125

/-- Lowercase Latin letter, the class `[a-z]` of the first substitution. -/
def isLowerLatin (c : Char) : Bool := 'a' ≤ c && c ≤ 'z'

/-- The replacement text of the first substitution.  The Python template is the
raw string `r'\\1(\\2)'`: the doubled backslashes denote literal backslash
characters, so the template is the six literal characters backslash, `1`, `(`,
backslash, `2`, `)` — NOT references to the capture groups. -/
def genderRepl : List Char := ['\\', '1', '(', '\\', '2', ')']

/-- Scanner of substitution 1, fuel-based (fuel bounds the number of scanning
steps; one unit is consumed per position, so the input length is enough fuel):
pattern `([a-z])\*(innen|r|n)`, alternation tried in source order
(`innen`, then `r`, then `n`); scanning resumes after each match. -/
def sub_genderGo : Nat → List Char → List Char
  | 0, l => l
  | _, [] => []
  | fuel + 1, c :: rest =>
    if isLowerLatin c then
      match rest with
      | '*' :: 'i' :: 'n' :: 'n' :: 'e' :: 'n' :: rest2 =>
        genderRepl ++ sub_genderGo fuel rest2
      | '*' :: 'r' :: rest2 => genderRepl ++ sub_genderGo fuel rest2
      | '*' :: 'n' :: rest2 => genderRepl ++ sub_genderGo fuel rest2
      | _ => c :: sub_genderGo fuel rest
    else c :: sub_genderGo fuel rest

/-- Substitution 1 of `latex_substitutions` with replacement `r'\\1(\\2)'`. -/
def sub_gender (l : List Char) : List Char := sub_genderGo l.length l

/-- Substitution 2: the low opening quotation mark `„` becomes a straight quote. -/
def sub_lowquote (l : List Char) : List Char :=
  l.map (fun c => if c = '„' then quoteChar else c)

/-- Substitution 3: the high quotation mark `“` becomes a straight quote. -/
def sub_highquote (l : List Char) : List Char :=
  l.map (fun c => if c = '“' then quoteChar else c)

/-- Substitution 4: each literal backslash becomes the 14 characters
`\textbackslash` (the template `r'\\textbackslash'` denotes a literal backslash
followed by `textbackslash`). -/
def sub_backslash (l : List Char) : List Char :=
  l.flatMap (fun c => if c = '\\' then "\\textbackslash".data else [c])

/-- The character class of substitution 5. -/
def specialChars : List Char := [lbraceChar, rbraceChar, '_', '#', '%', '&', '$']

/-- Substitution 5: prepend a backslash to each reserved character. -/
def sub_special (l : List Char) : List Char :=
  l.flatMap (fun c => if specialChars.contains c then ['\\', c] else [c])

/-- Substitution 6: `~` becomes backslash, `~`, brace pair. -/
def sub_tilde (l : List Char) : List Char :=
  l.flatMap (fun c => if c = '~' then ['\\', '~', lbraceChar, rbraceChar] else [c])

/-- Substitution 7: `^` becomes backslash, `^`, brace pair. -/
def sub_caret (l : List Char) : List Char :=
  l.flatMap (fun c => if c = '^' then ['\\', '^', lbraceChar, rbraceChar] else [c])

/-- Scanner of substitution 8 (fuel-based): a space followed by a straight
quote gains a backtick (typeset opening quote). -/
def sub_openquoteGo : Nat → List Char → List Char
  | 0, l => l
  | _, [] => []
  | fuel + 1, c :: rest =>
    if c = ' ' then
      match rest with
      | d :: rest2 =>
        if d = quoteChar then ' ' :: quoteChar :: backtickChar :: sub_openquoteGo fuel rest2
        else ' ' :: sub_openquoteGo fuel rest
      | [] => [' ']
    else c :: sub_openquoteGo fuel rest

/-- Substitution 8: pattern space-quote, replacement space, quote, backtick. -/
def sub_openquote (l : List Char) : List Char := sub_openquoteGo l.length l

/-- The punctuation class of substitution 9. -/
def punctAfterQuote : List Char := [' ', '.', ',', ';', ':']

/-- Scanner of substitution 9 (fuel-based): a straight quote followed by one of
space `.`,`,`,`;`,`:` gains an apostrophe (typeset closing quote), the
punctuation kept. -/
def sub_closequoteGo : Nat → List Char → List Char
  | 0, l => l
  | _, [] => []
  | fuel + 1, c1 :: rest =>
    if c1 = quoteChar then
      match rest with
      | c2 :: rest2 =>
        if punctAfterQuote.contains c2 then
          quoteChar :: aposChar :: c2 :: sub_closequoteGo fuel rest2
        else c1 :: sub_closequoteGo fuel rest
      | [] => [c1]
    else c1 :: sub_closequoteGo fuel rest

/-- Substitution 9: pattern `"([ .,;:])`, replacement quote, apostrophe, group. -/
def sub_closequote (l : List Char) : List Char := sub_closequoteGo l.length l

/-- Substitution 10: pattern `^"` — a straight quote at the very start of the
text gains a backtick.  (No MULTILINE flag, so only the string start counts.) -/
def sub_startquote (l : List Char) : List Char :=
  match l with
  | c :: rest => if c = quoteChar then quoteChar :: backtickChar :: rest else c :: rest
  | [] => []

/-- Substitution 11: pattern `"$` — a straight quote at the very end of the
text (or just before a single final newline, as Python `$` also matches there)
gains an apostrophe. -/
def sub_endquote (l : List Char) : List Char :=
  match l.getLast? with
  | some c =>
    if c = quoteChar then l.dropLast ++ [quoteChar, aposChar]
    else if c = '\n' then
      match l.dropLast.getLast? with
      | some d =>
        if d = quoteChar then l.dropLast.dropLast ++ [quoteChar, aposChar, '\n']
        else l
      | none => l
    else l
  | none => l

/-- Scanner of substitution 12 (fuel-based): pattern `([^ ]) (–|-) ` with
template `"\\1~-- "`: a non-space character, space, en dash or hyphen, space
becomes the character followed by `~-- `; scanning resumes after the consumed
trailing space. -/
def sub_dashGo : Nat → List Char → List Char
  | 0, l => l
  | _, [] => []
  | fuel + 1, c1 :: rest =>
    if c1 ≠ ' ' then
      match rest with
      | ' ' :: d :: ' ' :: rest2 =>
        if d = '–' || d = '-' then
          c1 :: '~' :: '-' :: '-' :: ' ' :: sub_dashGo fuel rest2
        else c1 :: sub_dashGo fuel rest
      | _ => c1 :: sub_dashGo fuel rest
    else c1 :: sub_dashGo fuel rest

/-- Substitution 12: guard against bad line breaks around spaced dashes. -/
def sub_dash (l : List Char) : List Char := sub_dashGo l.length l

/-- `escape_latex(source)`: the twelve substitutions of `latex_substitutions`
applied in source order. -/
def escape_latex (l : List Char) : List Char :=
  sub_dash (sub_endquote (sub_startquote (sub_closequote (sub_openquote
    (sub_caret (sub_tilde (sub_special (sub_backslash
      (sub_highquote (sub_lowquote (sub_gender l)))))))))))

/-- String-level wrapper of `escape_latex`. -/
def escape_latexS (s : String) : String := String.mk (escape_latex s.data)

end Pretalx

/-- C2 (code bug): `escape_latex("x*innen")` does not produce `"x(innen)"`.
The replacement template of the gendered-suffix rule is the raw string
`r'\\1(\\2)'`, whose doubled backslashes are literal, so the whole match is
replaced by the literal text backslash-`1(`-backslash-`2)`; the later
backslash-escaping rule then rewrites it to `\textbackslash1(\textbackslash2)`.
The capture groups in the pattern are clearly meant to be referenced (the same
file writes working group references `\1` elsewhere), so the claim states the
intent and the code has a slip. -/
theorem c2_escape_latex_bug :
    Pretalx.escape_latexS "x*innen" = "\\textbackslash1(\\textbackslash2)" := by
  decide

namespace Pretalx

/-- Scanner of `RE_SINGLE_NEWLINE.sub` (fuel-based).  The compiled pattern is
the RAW string `r'([^\\n])\\n'`, i.e. the regex `([^\\n])\\n`: a character that
is neither a backslash nor the letter `n`, followed by a LITERAL backslash and
the letter `n` — it does not mention the newline character at all.  The
replacement template `"\\1\\n\\n"` is group 1 followed by two real newline
characters.  Scanning resumes after each match. -/
def subNLGo : Nat → List Char → List Char
  | 0, l => l
  | _, [] => []
  | fuel + 1, c :: rest =>
    if (c ≠ '\\' ∧ c ≠ 'n') ∧ rest.take 2 = ['\\', 'n'] then
      c :: '\n' :: '\n' :: subNLGo fuel (rest.drop 2)
    else c :: subNLGo fuel rest

/-- `RE_SINGLE_NEWLINE.sub("\\1\\n\\n", s)` of the source. -/
def re_single_newline_sub (l : List Char) : List Char := subNLGo l.length l

/-- String-level wrapper of `re_single_newline_sub`. -/
def re_single_newline_subS (s : String) : String :=
  String.mk (re_single_newline_sub s.data)

/-- Scanner of Python `s.replace("\r\n", "\n")` (fuel-based, non-overlapping,
left to right). -/
def replace_crlfGo : Nat → List Char → List Char
  | 0, l => l
  | _, [] => []
  | fuel + 1, c :: rest =>
    if c = '\r' ∧ rest.take 1 = ['\n'] then '\n' :: replace_crlfGo fuel (rest.drop 1)
    else c :: replace_crlfGo fuel rest

/-- Python `s.replace("\r\n", "\n")`. -/
def replace_crlf (l : List Char) : List Char := replace_crlfGo l.length l

/-- Scanner of Python `s.replace("\n\n", "\n")` (fuel-based, non-overlapping,
left to right). -/
def replace_nlnlGo : Nat → List Char → List Char
  | 0, l => l
  | _, [] => []
  | fuel + 1, c :: rest =>
    if c = '\n' ∧ rest.take 1 = ['\n'] then '\n' :: replace_nlnlGo fuel (rest.drop 1)
    else c :: replace_nlnlGo fuel rest

/-- Python `s.replace("\n\n", "\n")`, one pass. -/
def replace_nlnl (l : List Char) : List Char := replace_nlnlGo l.length l

end Pretalx

/-- C3 counterexample: the substitution performed before paragraph splitting
leaves an actual lone newline character completely unchanged (`"a\nb"` stays
`"a\nb"`), contradicting the claim that every such newline is converted into a
double newline: the compiled pattern `r'([^\\n])\\n'` matches the literal
two-character sequence backslash-`n`, not the newline character. -/
theorem c3_counterexample :
    Pretalx.re_single_newline_subS "a\nb" = "a\nb" ∧
      Pretalx.re_single_newline_subS "a\nb" ≠ "a\n\nb" := by
  exact ⟨by decide, by decide⟩

namespace Pretalx

/-- Whitespace for the purposes of `textwrap`'s splitting regex `(\s+)` and of
`str.strip()`: the ASCII whitespace control characters plus the Unicode space
separators. -/
def isPySpace (c : Char) : Bool :=
  c ∈ [' ', '\t', '\n', '\r', Char.ofNat 11, Char.ofNat 12,
       Char.ofNat 28, Char.ofNat 29, Char.ofNat 30, Char.ofNat 31,
       Char.ofNat 133, Char.ofNat 160, Char.ofNat 5760] ||
  (Char.ofNat 8192 ≤ c && c ≤ Char.ofNat 8202) ||
  c ∈ [Char.ofNat 8232, Char.ofNat 8233, Char.ofNat 8239, Char.ofNat 8287,
       Char.ofNat 12288]

/-- Python `str.expandtabs()` with the default tab size 8: each tab is replaced
by spaces up to the next multiple-of-8 column; newline and carriage return
reset the column. -/
def expandtabsGo : Nat → List Char → List Char
  | _, [] => []
  | col, c :: rest =>
    if c = '\t' then
      List.replicate (8 - col % 8) ' ' ++ expandtabsGo (col + (8 - col % 8)) rest
    else if c = '\n' || c = '\r' then c :: expandtabsGo 0 rest
    else c :: expandtabsGo (col + 1) rest

/-- `TextWrapper._munge_whitespace` with the default options `expand_tabs` and
`replace_whitespace`: expand tabs, then translate each of the six characters of
`textwrap._whitespace` (tab, newline, vertical tab, form feed, carriage
return, space) to a space. -/
def munge_whitespace (l : List Char) : List Char :=
  (expandtabsGo 0 l).map (fun c =>
    if c ∈ ['\t', '\n', Char.ofNat 11, Char.ofNat 12, '\r'] then ' ' else c)

/-- `TextWrapper._split` with `break_on_hyphens=False`: `re.split(r'(\s+)')`
keeping the separators, with empty pieces dropped — i.e. the maximal runs of
whitespace and of non-whitespace characters, in order. -/
def chunkify : List Char → List (List Char)
  | [] => []
  | c :: rest =>
    match chunkify rest with
    | [] => [[c]]
    | [] :: ws => [c] :: [] :: ws
    | (d :: w) :: ws =>
      if isPySpace c = isPySpace d then (c :: d :: w) :: ws
      else [c] :: (d :: w) :: ws

/-- A chunk whose `strip()` is empty, i.e. all characters are whitespace. -/
def isWsChunk (w : List Char) : Bool := w.all isPySpace

/-- The greedy inner loop of `TextWrapper._wrap_chunks`: pop chunks onto the
current line while the accumulated length stays within the width 98. -/
def fillGo (curLen : Nat) : List (List Char) → List (List Char) × List (List Char)
  | [] => ([], [])
  | w :: rest =>
    if curLen + w.length ≤ 98 then
      match fillGo (curLen + w.length) rest with
      | (a, b) => (w :: a, b)
    else ([], w :: rest)

/-- Total character length of the chunks of a line. -/
def lineLen (cur : List (List Char)) : Nat := (cur.map List.length).sum

/-- Drop a trailing all-whitespace chunk from the current line
(`drop_whitespace` handling at the end of a line). -/
def dropTrailingWs (cur : List (List Char)) : List (List Char) :=
  match cur.getLast? with
  | some w => if isWsChunk w then cur.dropLast else cur
  | none => cur

/-- One long-word step of `TextWrapper._handle_long_word` with
`break_long_words=True` and `break_on_hyphens=False`: when the next chunk is
longer than the width 98, split it at the remaining space of the current
line. -/
def handleLongWord (cur : List (List Char)) (rest : List (List Char)) :
    List (List Char) × List (List Char) :=
  match rest with
  | w :: tl =>
    if 98 < w.length then
      (cur ++ [w.take (98 - lineLen cur)], w.drop (98 - lineLen cur) :: tl)
    else (cur, rest)
  | [] => (cur, rest)

/-- The outer loop of `TextWrapper._wrap_chunks` for width 98, no indents,
`drop_whitespace=True`, `max_lines=None` (fuel-based; every iteration with a
non-empty chunk list consumes at least one character, so the total character
count plus one is enough fuel).  `lines` is the accumulator, in reverse
order. -/
def wrapGo : Nat → List (List Char) → List (List Char) → List (List Char)
  | 0, _, lines => lines.reverse
  | _ + 1, [], lines => lines.reverse
  | fuel + 1, c0 :: cs, lines =>
    let chunks1 := if !lines.isEmpty && isWsChunk c0 then cs else c0 :: cs
    match chunks1 with
    | [] => lines.reverse
    | c1 :: cs1 =>
      match fillGo 0 (c1 :: cs1) with
      | (cur0, rest0) =>
        match handleLongWord cur0 rest0 with
        | (cur1, rest1) =>
          match dropTrailingWs cur1 with
          | [] => wrapGo fuel rest1 lines
          | cur2 => wrapGo fuel rest1 (cur2.flatten :: lines)

/-- `textwrap.wrap(paragraph, 98, break_on_hyphens=False)` with all other
options at their defaults. -/
def textwrap_wrap (text : List Char) : List (List Char) :=
  let m := munge_whitespace text
  wrapGo (m.length + 1) (chunkify m) []

end Pretalx

namespace Pretalx

/-- `break_long_lines(source)` of the source file: normalize `\r\n`, apply the
`RE_SINGLE_NEWLINE` substitution, split on newlines, wrap each non-empty piece
at width 98 (keeping empty pieces), indent every non-empty line with two
spaces, join with newlines, then replace `"\n\n"` by `"\n"` three times. -/
def break_long_lines (source : List Char) : List Char :=
  let s := re_single_newline_sub (replace_crlf source)
  let pieces := splitOnChar '\n' s
  let result := pieces.flatMap (fun p => if p = [] then [[]] else textwrap_wrap p)
  let indented := result.map (fun l => if l = [] then l else ' ' :: ' ' :: l)
  let joined := List.intercalate ['\n'] indented
  replace_nlnl (replace_nlnl (replace_nlnl joined))

/-- String-level wrapper of `break_long_lines`. -/
def break_long_linesS (s : String) : String := String.mk (break_long_lines s.data)

end Pretalx

/-- Sanity check of the wrapper model on a concrete paragraph. -/
example : Pretalx.break_long_linesS "one two" = "  one two" := by decide

/-- C4 counterexample: the input `"a\n\nb"` contains one empty (blank
separator) line, but the wrapper's output `"  a\n  b"` contains none — the
final `replace("\n\n", "\n")` passes delete the blank line instead of keeping
it, so empty input lines are NOT preserved in the output. -/
theorem c4_counterexample :
    Pretalx.break_long_linesS "a\n\nb" = "  a\n  b" ∧
      ("a\n\nb".data.count '\n' = 2 ∧
        (Pretalx.splitOnChar '\n' "a\n\nb".data).contains [] = true) ∧
      (Pretalx.splitOnChar '\n' (Pretalx.break_long_linesS "a\n\nb").data).contains []
        = false := by
  refine ⟨by decide, ⟨by decide, by decide⟩, by decide⟩

/-- C4 (amended): empty lines survive the splitting/wrapping stage unindented,
but the three final double-newline collapsing passes remove interior blank
lines from the output entirely: two one-word paragraphs separated by a run of
1 to 8 newline characters (i.e. up to 7 blank lines) come out separated by
exactly one newline with no blank line between them.  (Runs longer than 8
newlines are only partially collapsed, and a leading or trailing newline run
can still leave a blank first or last output line.) -/
theorem c4_amended (k : Nat) (h1 : 1 ≤ k) (h2 : k ≤ 8) :
    Pretalx.break_long_lines ('a' :: List.replicate k '\n' ++ ['b'])
      = "  a\n  b".data := by
  interval_cases k <;> decide

/-- Witness for C4 (amended) at `k = 2`. -/
theorem c4_witness :
    Pretalx.break_long_lines ('a' :: List.replicate 2 '\n' ++ ['b'])
      = "  a\n  b".data :=
  c4_amended 2 (by decide) (by decide)

set_option maxRecDepth 40000 in
/-- C5 counterexample: the single-paragraph input of 150 space characters has
no hyphen and no newline, yet the wrapper returns the empty string — a single
empty output line, not at least two lines: `textwrap.wrap` drops
whitespace-only content entirely. -/
theorem c5_counterexample :
    (List.replicate 150 ' ').length = 150 ∧
      ('-' ∈ List.replicate 150 ' ' → False) ∧
      ('\n' ∈ List.replicate 150 ' ' → False) ∧
      Pretalx.break_long_lines (List.replicate 150 ' ') = [] ∧
      (Pretalx.splitOnChar '\n'
        (Pretalx.break_long_lines (List.replicate 150 ' '))).length = 1 := by
  refine ⟨by decide, by decide, by decide, by decide, by decide⟩

namespace Pretalx

theorem subNLGo_no_backslash (fuel : Nat) : ∀ l, '\\' ∉ l → subNLGo fuel l = l := by
  induction fuel with
  | zero => intro l _; cases l <;> rfl
  | succ fuel ih =>
    intro l h
    cases l with
    | nil => rfl
    | cons c rest =>
      have hrest : '\\' ∉ rest := fun hr => h (List.mem_cons_of_mem c hr)
      have hno : ¬ ((c ≠ '\\' ∧ c ≠ 'n') ∧ rest.take 2 = ['\\', 'n']) := by
        rintro ⟨-, ht⟩
        exact hrest (List.take_subset 2 rest (ht ▸ List.mem_cons_self '\\' ['n']))
      rw [subNLGo, if_neg hno, ih rest hrest]

end Pretalx

/-- C3 (amended): the substitution applied before paragraph splitting targets
the literal two-character sequence backslash-`n` (preceded by a character other
than backslash and `n`), replacing the pair by two real newline characters; it
never touches actual newline characters, so any input without a literal
backslash passes through unchanged and its lone newlines act as split points
as they stand.  For example `"a\\nb"` (with a literal backslash) becomes
`"a\n\nb"` while `"a\nb"` is left alone. -/
theorem c3_amended :
    (∀ l : List Char, '\\' ∉ l → Pretalx.re_single_newline_sub l = l) ∧
      Pretalx.re_single_newline_subS "a\\nb" = "a\n\nb" := by
  constructor
  · intro l h
    exact Pretalx.subNLGo_no_backslash l.length l h
  · decide

/-- Witness for C3 (amended): the first conjunct applied at `"a\nb"`. -/
theorem c3_witness :
    Pretalx.re_single_newline_sub "a\nb".data = "a\nb".data :=
  c3_amended.1 "a\nb".data (by decide)

namespace Pretalx

theorem replace_crlfGo_no_cr (fuel : Nat) :
    ∀ l, '\r' ∉ l → replace_crlfGo fuel l = l := by
  induction fuel with
  | zero => intro l _; cases l <;> rfl
  | succ fuel ih =>
    intro l h
    cases l with
    | nil => rfl
    | cons c rest =>
      have hc : c ≠ '\r' := fun hc => h (hc ▸ List.mem_cons_self c rest)
      have hrest : '\r' ∉ rest := fun hr => h (List.mem_cons_of_mem c hr)
      have hno : ¬ (c = '\r' ∧ rest.take 1 = ['\n']) := fun hcc => hc hcc.1
      rw [replace_crlfGo, if_neg hno, ih rest hrest]

theorem splitOnChar_no_sep {sep : Char} :
    ∀ {l : List Char}, sep ∉ l → splitOnChar sep l = [l] := by
  intro l
  induction l with
  | nil => intro _; rfl
  | cons c rest ih =>
    intro h
    have hc : c ≠ sep := fun hc => h (hc ▸ List.mem_cons_self c rest)
    have hrest : sep ∉ rest := fun hr => h (List.mem_cons_of_mem c hr)
    rw [splitOnChar, if_neg hc, ih hrest]

theorem splitOnChar_append {sep : Char} :
    ∀ {a : List Char} (b : List Char), sep ∉ a →
      splitOnChar sep (a ++ sep :: b) = a :: splitOnChar sep b := by
  intro a
  induction a with
  | nil =>
    intro b _
    show splitOnChar sep (sep :: b) = [] :: splitOnChar sep b
    rw [splitOnChar, if_pos rfl]
  | cons c rest ih =>
    intro b h
    have hc : c ≠ sep := fun hc => h (hc ▸ List.mem_cons_self c rest)
    have hrest : sep ∉ rest := fun hr => h (List.mem_cons_of_mem c hr)
    show splitOnChar sep (c :: (rest ++ sep :: b)) = (c :: rest) :: splitOnChar sep b
    rw [splitOnChar, if_neg hc, ih b hrest]

theorem expandtabsGo_no_tab : ∀ (l : List Char), '\t' ∉ l → ∀ col, expandtabsGo col l = l := by
  intro l
  induction l with
  | nil => intro _ col; rfl
  | cons c rest ih =>
    intro h col
    have hc : c ≠ '\t' := fun hc => h (hc ▸ List.mem_cons_self c rest)
    have hrest : '\t' ∉ rest := fun hr => h (List.mem_cons_of_mem c hr)
    rw [expandtabsGo]
    by_cases hnl : c = '\n' || c = '\r'
    · rw [if_neg hc, if_pos hnl, ih hrest 0]
    · rw [if_neg hc, if_neg hnl, ih hrest (col + 1)]

theorem munge_whitespace_id {l : List Char} (h : ∀ c ∈ l, isPySpace c = false) :
    munge_whitespace l = l := by
  unfold munge_whitespace
  have htab : '\t' ∉ l := fun ht => by simpa [isPySpace] using h '\t' ht
  rw [expandtabsGo_no_tab l htab 0]
  have hcongr : ∀ c ∈ l,
      (if c ∈ ['\t', '\n', Char.ofNat 11, Char.ofNat 12, '\r'] then ' ' else c) = id c := by
    intro c hc
    have := h c hc
    have hmem : c ∉ ['\t', '\n', Char.ofNat 11, Char.ofNat 12, '\r'] := by
      intro hm
      fin_cases hm <;> simp_all [isPySpace]
    rw [if_neg hmem]
    rfl
  rw [List.map_congr_left hcongr, List.map_id]

theorem chunkify_single :
    ∀ {l : List Char}, (∀ c ∈ l, isPySpace c = false) → l ≠ [] → chunkify l = [l] := by
  intro l
  induction l with
  | nil => intro _ h; exact absurd rfl h
  | cons c rest ih =>
    intro h _
    rcases rest with _ | ⟨d, rest2⟩
    · rfl
    · have hrest : chunkify (d :: rest2) = [d :: rest2] :=
        ih (fun e he => h e (List.mem_cons_of_mem c he)) (by simp)
      rw [chunkify, hrest]
      have hcd : isPySpace c = isPySpace d := by
        rw [h c (List.mem_cons_self c _), h d (List.mem_cons_of_mem c (List.mem_cons_self d _))]
      show (if isPySpace c = isPySpace d then (c :: d :: rest2) :: ([] : List (List Char))
        else [c] :: (d :: rest2) :: []) = [c :: d :: rest2]
      rw [if_pos hcd]

end Pretalx

namespace Pretalx

theorem isWsChunk_false {w : List Char} (hne : w ≠ [])
    (h : ∀ c ∈ w, isPySpace c = false) : isWsChunk w = false := by
  cases w with
  | nil => exact absurd rfl hne
  | cons c rest =>
    unfold isWsChunk
    rw [List.all_cons, h c (List.mem_cons_self c rest), Bool.false_and]

theorem wrapGo_nil (fuel : Nat) (acc : List (List Char)) :
    wrapGo fuel [] acc = acc.reverse := by
  cases fuel <;> rfl

theorem fillGo_single_fit {curLen : Nat} {w : List Char} (h : curLen + w.length ≤ 98) :
    fillGo curLen [w] = ([w], []) := by
  unfold fillGo
  rw [if_pos h]
  rfl

theorem fillGo_nofit {curLen : Nat} {w : List Char} {rest : List (List Char)}
    (h : ¬ (curLen + w.length ≤ 98)) :
    fillGo curLen (w :: rest) = ([], w :: rest) := by
  unfold fillGo
  rw [if_neg h]

theorem dropTrailingWs_single {w : List Char} (hws : isWsChunk w = false) :
    dropTrailingWs [w] = [w] := by
  unfold dropTrailingWs
  simp [hws]

theorem wrapGo_single_fit {w : List Char} (hne : w ≠ [])
    (hws : ∀ c ∈ w, isPySpace c = false) (hlen : w.length ≤ 98) :
    ∀ fuel acc, wrapGo (fuel + 1) [w] acc = (w :: acc).reverse := by
  intro fuel acc
  have hwsf := isWsChunk_false hne hws
  rw [wrapGo]
  simp only [hwsf, Bool.and_false, Bool.false_eq_true, if_false]
  rw [fillGo_single_fit (by omega)]
  unfold handleLongWord
  simp only []
  rw [dropTrailingWs_single hwsf]
  simp only [List.flatten_cons, List.flatten_nil, List.append_nil]
  exact wrapGo_nil fuel (w :: acc)

theorem wrapGo_single_long {w : List Char} (h99 : 99 ≤ w.length) (h196 : w.length ≤ 196)
    (hws : ∀ c ∈ w, isPySpace c = false) :
    ∀ fuel acc, wrapGo (fuel + 1 + 1) [w] acc = (w.drop 98 :: w.take 98 :: acc).reverse := by
  intro fuel acc
  have hne : w ≠ [] := by
    intro h
    rw [h] at h99
    simp at h99
  have hwsf := isWsChunk_false hne hws
  have htne : w.take 98 ≠ [] := by
    have : (w.take 98).length = 98 := by
      rw [List.length_take]
      omega
    intro h
    rw [h] at this
    simp at this
  have htws : ∀ c ∈ w.take 98, isPySpace c = false :=
    fun c hc => hws c (List.take_subset 98 w hc)
  have hdne : w.drop 98 ≠ [] := by
    have : (w.drop 98).length = w.length - 98 := List.length_drop 98 w
    intro h
    rw [h] at this
    simp at this
    omega
  have hdws : ∀ c ∈ w.drop 98, isPySpace c = false :=
    fun c hc => hws c (List.drop_subset 98 w hc)
  have hdlen : (w.drop 98).length ≤ 98 := by
    rw [List.length_drop]
    omega
  rw [wrapGo]
  simp only [hwsf, Bool.and_false, Bool.false_eq_true, if_false]
  rw [fillGo_nofit (by omega)]
  unfold handleLongWord
  dsimp only
  rw [if_pos (by omega : 98 < w.length)]
  dsimp only [lineLen, List.map_nil, List.sum_nil, Nat.sub_zero, List.nil_append]
  rw [dropTrailingWs_single (isWsChunk_false htne htws)]
  simp only [List.flatten_cons, List.flatten_nil, List.append_nil]
  rw [wrapGo_single_fit hdne hdws hdlen fuel (w.take 98 :: acc)]

theorem textwrap_wrap_150 {s : List Char} (hlen : s.length = 150)
    (hws : ∀ c ∈ s, isPySpace c = false) :
    textwrap_wrap s = [s.take 98, s.drop 98] := by
  have hne : s ≠ [] := by
    intro h
    rw [h] at hlen
    simp at hlen
  unfold textwrap_wrap
  simp only [munge_whitespace_id hws, chunkify_single hws hne, hlen]
  have h151 : (150 : Nat) + 1 = 149 + 1 + 1 := by norm_num
  rw [h151, wrapGo_single_long (by omega) (by omega) hws 149 []]
  simp

end Pretalx

namespace Pretalx

theorem replace_nlnlGo_id (fuel : Nat) :
    ∀ l : List Char, l.Chain' (fun a b => ¬ (a = '\n' ∧ b = '\n')) →
      replace_nlnlGo fuel l = l := by
  induction fuel with
  | zero => intro l _; cases l <;> rfl
  | succ fuel ih =>
    intro l hchain
    cases l with
    | nil => rfl
    | cons c rest =>
      have hno : ¬ (c = '\n' ∧ rest.take 1 = ['\n']) := by
        rintro ⟨hc, ht⟩
        cases rest with
        | nil => simp at ht
        | cons d rest2 =>
          have hd : d = '\n' := by simpa using ht
          exact (List.chain'_cons.mp hchain).1 ⟨hc, hd⟩
      rw [replace_nlnlGo, if_neg hno, ih rest hchain.tail]

theorem chain_no_nl {l : List Char} (h : '\n' ∉ l) :
    l.Chain' (fun a b => ¬ (a = '\n' ∧ b = '\n')) := by
  induction l with
  | nil => simp
  | cons c rest ih =>
    rw [List.chain'_cons']
    refine ⟨?_, ih (fun hr => h (List.mem_cons_of_mem c hr))⟩
    rintro y - ⟨hc, -⟩
    exact h (hc ▸ List.mem_cons_self c rest)

theorem chain_one_nl {a b : List Char} (ha : '\n' ∉ a) (hb : '\n' ∉ b) :
    (a ++ '\n' :: b).Chain' (fun x y => ¬ (x = '\n' ∧ y = '\n')) := by
  rw [List.chain'_append]
  refine ⟨chain_no_nl ha, ?_, ?_⟩
  · rw [List.chain'_cons']
    refine ⟨?_, chain_no_nl hb⟩
    intro y hy
    rintro ⟨-, hy'⟩
    cases b with
    | nil => simp at hy
    | cons d rest =>
      have hdn : d = '\n' := (by simpa using hy : d = y).trans hy'
      exact hb (hdn ▸ List.mem_cons_self d rest)
  · intro x hx y hy
    rintro ⟨hx', -⟩
    exact ha (hx' ▸ List.mem_of_getLast?_eq_some hx)

theorem replace_nlnl_one {a b : List Char} (ha : '\n' ∉ a) (hb : '\n' ∉ b) :
    replace_nlnl (a ++ '\n' :: b) = a ++ '\n' :: b :=
  replace_nlnlGo_id _ _ (chain_one_nl ha hb)

theorem replace_crlf_id {l : List Char} (h : '\r' ∉ l) : replace_crlf l = l :=
  replace_crlfGo_no_cr l.length l h

theorem re_single_newline_sub_id {l : List Char} (h : '\\' ∉ l) :
    re_single_newline_sub l = l :=
  subNLGo_no_backslash l.length l h

theorem intercalate_pair (x y : List Char) :
    List.intercalate ['\n'] [x, y] = x ++ '\n' :: y := by
  simp [List.intercalate, List.intersperse]

end Pretalx

namespace Pretalx

/-- Presence of the literal two-character sequence backslash-`n` anywhere in
the text — the only substring at which the `RE_SINGLE_NEWLINE` substitution
can fire. -/
def hasBSN : List Char → Bool
  | [] => false
  | c :: rest => (c = '\\' && rest.take 1 = ['n']) || hasBSN rest

theorem subNLGo_no_bsn (fuel : Nat) : ∀ l, hasBSN l = false → subNLGo fuel l = l := by
  induction fuel with
  | zero => intro l _; cases l <;> rfl
  | succ fuel ih =>
    intro l h
    cases l with
    | nil => rfl
    | cons c rest =>
      rw [hasBSN] at h
      have hparts := Bool.or_eq_false_iff.mp h
      have hrest : hasBSN rest = false := hparts.2
      have hno : ¬ ((c ≠ '\\' ∧ c ≠ 'n') ∧ rest.take 2 = ['\\', 'n']) := by
        rintro ⟨-, ht⟩
        cases rest with
        | nil => simp at ht
        | cons d r =>
          cases r with
          | nil => simp at ht
          | cons e r2 =>
            simp only [List.take, List.cons.injEq, and_true] at ht
            obtain ⟨hd, he⟩ := ht
            rw [hasBSN] at hrest
            subst hd
            subst he
            simp at hrest
      rw [subNLGo, if_neg hno, ih rest hrest]

theorem re_single_newline_sub_id_of_no_bsn {l : List Char} (h : hasBSN l = false) :
    re_single_newline_sub l = l :=
  subNLGo_no_bsn l.length l h

theorem break_long_lines_150 {s : List Char} (hlen : s.length = 150)
    (hws : ∀ c ∈ s, isPySpace c = false) (hbsn : hasBSN s = false) :
    break_long_lines s
      = (' ' :: ' ' :: s.take 98) ++ '\n' :: (' ' :: ' ' :: s.drop 98) := by
  have hnl : '\n' ∉ s := fun h => by simpa [isPySpace] using hws '\n' h
  have hcr : '\r' ∉ s := fun h => by simpa [isPySpace] using hws '\r' h
  have hne : s ≠ [] := by
    intro h
    rw [h] at hlen
    simp at hlen
  have htne : s.take 98 ≠ [] := by
    have : (s.take 98).length = 98 := by
      rw [List.length_take]
      omega
    intro h
    rw [h] at this
    simp at this
  have hdne : s.drop 98 ≠ [] := by
    have : (s.drop 98).length = 52 := by
      rw [List.length_drop]
      omega
    intro h
    rw [h] at this
    simp at this
  have hanl : '\n' ∉ ' ' :: ' ' :: s.take 98 := by
    intro h
    simp only [List.mem_cons] at h
    rcases h with h | h | h
    · exact absurd h (by decide)
    · exact absurd h (by decide)
    · exact hnl (List.take_subset 98 s h)
  have hbnl : '\n' ∉ ' ' :: ' ' :: s.drop 98 := by
    intro h
    simp only [List.mem_cons] at h
    rcases h with h | h | h
    · exact absurd h (by decide)
    · exact absurd h (by decide)
    · exact hnl (List.drop_subset 98 s h)
  unfold break_long_lines
  simp only [replace_crlf_id hcr, re_single_newline_sub_id_of_no_bsn hbsn, splitOnChar_no_sep hnl,
    List.flatMap_cons, List.flatMap_nil, List.append_nil, if_neg hne,
    textwrap_wrap_150 hlen hws, List.map_cons, List.map_nil, if_neg htne, if_neg hdne,
    intercalate_pair]
  rw [replace_nlnl_one hanl hbnl, replace_nlnl_one hanl hbnl, replace_nlnl_one hanl hbnl]

end Pretalx

/-- C5 (amended): for every single-paragraph input of 150 characters containing
no whitespace characters (in particular no newlines; all-whitespace content
would be dropped entirely, as the counterexample shows), no literal
backslash-`n` sequence (which the newline substitution would rewrite), and no
hyphens, the line wrapper produces exactly two output lines of 98 and 52
characters excluding the leading indent — hence at least two lines, each at
most 98 characters excluding its indent — and every output line begins with
exactly two spaces. -/
theorem c5_amended (s : List Char) (hlen : s.length = 150)
    (hws : ∀ c ∈ s, Pretalx.isPySpace c = false) (hbsn : Pretalx.hasBSN s = false)
    (hhyph : '-' ∉ s) :
    Pretalx.splitOnChar '\n' (Pretalx.break_long_lines s)
        = [' ' :: ' ' :: s.take 98, ' ' :: ' ' :: s.drop 98] ∧
      2 ≤ (Pretalx.splitOnChar '\n' (Pretalx.break_long_lines s)).length ∧
      ∀ l ∈ Pretalx.splitOnChar '\n' (Pretalx.break_long_lines s),
        l.take 2 = [' ', ' '] ∧ l.length - 2 ≤ 98 := by
  have hnl : '\n' ∉ s := fun h => by simpa [Pretalx.isPySpace] using hws '\n' h
  have hanl : '\n' ∉ ' ' :: ' ' :: s.take 98 := by
    intro h
    simp only [List.mem_cons] at h
    rcases h with h | h | h
    · exact absurd h (by decide)
    · exact absurd h (by decide)
    · exact hnl (List.take_subset 98 s h)
  have hbnl : '\n' ∉ ' ' :: ' ' :: s.drop 98 := by
    intro h
    simp only [List.mem_cons] at h
    rcases h with h | h | h
    · exact absurd h (by decide)
    · exact absurd h (by decide)
    · exact hnl (List.drop_subset 98 s h)
  have hsplit : Pretalx.splitOnChar '\n' (Pretalx.break_long_lines s)
      = [' ' :: ' ' :: s.take 98, ' ' :: ' ' :: s.drop 98] := by
    rw [Pretalx.break_long_lines_150 hlen hws hbsn,
      Pretalx.splitOnChar_append _ hanl, Pretalx.splitOnChar_no_sep hbnl]
  refine ⟨hsplit, ?_, ?_⟩
  · rw [hsplit]
    simp
  · intro l hl
    rw [hsplit] at hl
    have hmin : min 98 s.length = 98 := by omega
    simp only [List.mem_cons, List.not_mem_nil, or_false] at hl
    rcases hl with hl | hl
    · subst hl
      refine ⟨rfl, ?_⟩
      simp [List.length_take, hmin]
    · subst hl
      refine ⟨rfl, ?_⟩
      simp [List.length_drop, hlen]

/-- Witness for C5 (amended) at the concrete input of 150 letters `a`. -/
theorem c5_witness :
    Pretalx.splitOnChar '\n' (Pretalx.break_long_lines (List.replicate 150 'a'))
        = [' ' :: ' ' :: (List.replicate 150 'a').take 98,
           ' ' :: ' ' :: (List.replicate 150 'a').drop 98] ∧
      2 ≤ (Pretalx.splitOnChar '\n'
        (Pretalx.break_long_lines (List.replicate 150 'a'))).length ∧
      ∀ l ∈ Pretalx.splitOnChar '\n' (Pretalx.break_long_lines (List.replicate 150 'a')),
        l.take 2 = [' ', ' '] ∧ l.length - 2 ≤ 98 :=
  c5_amended (List.replicate 150 'a') (by simp)
    (by intro c hc; rw [List.eq_of_mem_replicate hc]; decide)
    (by decide)
    (by intro h; exact absurd (List.eq_of_mem_replicate h) (by decide))

namespace Pretalx

/-- A talk record as built by the loading loop (lines 168–176 of the source):
`date` is the parsed timestamp (timezone-aware datetimes are totally ordered,
modelled as an integer), the other fields are text. -/
structure Talk where
  date : Int
  title : String
  room : String
  abstract : String
  speakers : String
  slug : String
  type : String
deriving DecidableEq

/-- The fixed room-priority table `rooms_order` of the source, verbatim
(including the missing closing parenthesis of `"OSM3 (MH 13"`). -/
def rooms_order : List (String × Nat) :=
  [("HS1 (ZHG 011)", 1),
   ("HS2 (ZHG 010)", 2),
   ("HS3 (ZHG 009)", 3),
   ("HS4 (ZHG 008)", 4),
   ("BoF1 (ZHG 001)", 5),
   ("BoF2 (ZHG 005)", 6),
   ("Bof3/Expert:innen (ZHG 006)", 7),
   ("WS1 (VG 1.104)", 8),
   ("WS2 (VG 1.103)", 9),
   ("WS3 (VG 1.102)", 10),
   ("Opening OSM (MH 09)", 11),
   ("OSM1 (MH 11)", 12),
   ("OSM2 (MH 10)", 13),
   ("OSM3 (MH 13", 14),
   ("Poster (Zelt)", 15),
   ("FOSSGIS-Stand", 16)]

/-- `rooms_order[room]`: `none` models the `KeyError` of a missing key. -/
def rooms_order_lookup (room : String) : Option Nat := rooms_order.lookup room

/-- The rank of a talk's room, with fallback 0 (used only to state conclusions
about talks whose lookup is known to succeed). -/
def rankOf (t : Talk) : Nat := (rooms_order_lookup t.room).getD 0

/-- Python tuple comparison on the composite key
`(t["date"], rooms_order[t["room"]])`: lexicographic. -/
def keyLe (a b : Int × Nat) : Bool :=
  decide (a.1 < b.1) || (decide (a.1 = b.1) && decide (a.2 ≤ b.2))

/-- Key computation for the whole list, as `list.sort(key=...)` computes every
key up front; the first missing room makes the whole computation fail
(Python raises `KeyError`). -/
def decorate : List Talk → Option (List ((Int × Nat) × Talk))
  | [] => some []
  | t :: rest =>
    match rooms_order_lookup t.room, decorate rest with
    | some r, some ps => some (((t.date, r), t) :: ps)
    | _, _ => none

/-- `talks.sort(key=lambda t: (t["date"], rooms_order[t["room"]]))`: a stable
sort by the composite key, or the propagated lookup failure.  Python's sort is
stable; `List.mergeSort` is its model. -/
def talksSortE (ts : List Talk) : Except String (List Talk) :=
  match decorate ts with
  | none => .error "KeyError: room not in rooms_order"
  | some pairs => .ok ((pairs.mergeSort (fun a b => keyLe a.1 b.1)).map Prod.snd)

theorem keyLe_total (a b : Int × Nat) : keyLe a b || keyLe b a := by
  unfold keyLe
  simp only [Bool.or_eq_true, Bool.and_eq_true, decide_eq_true_eq]
  omega

theorem keyLe_trans (a b c : Int × Nat) (h1 : keyLe a b) (h2 : keyLe b c) : keyLe a c := by
  unfold keyLe at h1 h2 ⊢
  simp only [Bool.or_eq_true, Bool.and_eq_true, decide_eq_true_eq] at h1 h2 ⊢
  omega

theorem decorate_eq_map {ts : List Talk}
    (h : ∀ t ∈ ts, (rooms_order_lookup t.room).isSome) :
    decorate ts = some (ts.map (fun t => ((t.date, rankOf t), t))) := by
  induction ts with
  | nil => rfl
  | cons t rest ih =>
    have ht := h t (List.mem_cons_self t rest)
    obtain ⟨r, hr⟩ := Option.isSome_iff_exists.mp ht
    have hrest := ih (fun u hu => h u (List.mem_cons_of_mem t hu))
    have hrank : rankOf t = r := by
      unfold rankOf
      rw [hr]
      rfl
    unfold decorate
    rw [hr, hrest]
    dsimp only
    rw [List.map_cons, hrank]

theorem decorate_none {ts : List Talk}
    (h : ∃ t ∈ ts, rooms_order_lookup t.room = none) : decorate ts = none := by
  induction ts with
  | nil => obtain ⟨t, ht, _⟩ := h; cases ht
  | cons t rest ih =>
    obtain ⟨u, hu, hnone⟩ := h
    rcases List.mem_cons.mp hu with hu | hu
    · subst hu
      unfold decorate
      rw [hnone]
    · have := ih ⟨u, hu, hnone⟩
      unfold decorate
      rw [this]
      rcases rooms_order_lookup t.room with _ | r <;> rfl

end Pretalx

namespace Pretalx

theorem map_snd_decorated (ts : List Talk) :
    (ts.map (fun t => ((t.date, rankOf t), t))).map Prod.snd = ts := by
  induction ts with
  | nil => rfl
  | cons t rest ih => simp only [List.map_cons, ih]

end Pretalx

/-- C6 counterexample: two distinct talks in the same room with the same
timestamp are both retained by the sorter (stable order, equal keys), so the
sorted output's room ranks are `[1, 1]` — not strictly ascending.  The claim's
universally quantified "strictly ascending rank" fails whenever two talks share
a room. -/
theorem c6_counterexample :
    Pretalx.talksSortE
        [⟨0, "A", "HS1 (ZHG 011)", "", "", "", ""⟩,
         ⟨0, "B", "HS1 (ZHG 011)", "", "", "", ""⟩]
      = .ok [⟨0, "A", "HS1 (ZHG 011)", "", "", "", ""⟩,
             ⟨0, "B", "HS1 (ZHG 011)", "", "", "", ""⟩] ∧
    ¬ List.Chain' (· < ·)
        (([⟨0, "A", "HS1 (ZHG 011)", "", "", "", ""⟩,
           ⟨0, "B", "HS1 (ZHG 011)", "", "", "", ""⟩] : List Pretalx.Talk).map
          Pretalx.rankOf) := by
  constructor
  · unfold Pretalx.talksSortE
    rw [show Pretalx.decorate
        [⟨0, "A", "HS1 (ZHG 011)", "", "", "", ""⟩,
         ⟨0, "B", "HS1 (ZHG 011)", "", "", "", ""⟩]
      = some [(((0 : Int), (1 : Nat)), ⟨0, "A", "HS1 (ZHG 011)", "", "", "", ""⟩),
              (((0 : Int), (1 : Nat)), ⟨0, "B", "HS1 (ZHG 011)", "", "", "", ""⟩)] from rfl]
    dsimp only
    rw [List.mergeSort_of_sorted (by decide)]
    rfl
  · intro h
    have e : (([⟨0, "A", "HS1 (ZHG 011)", "", "", "", ""⟩,
        ⟨0, "B", "HS1 (ZHG 011)", "", "", "", ""⟩] : List Pretalx.Talk).map
          Pretalx.rankOf) = [1, 1] := rfl
    rw [e] at h
    exact absurd (List.chain'_cons.mp h).1 (by omega)

/-- C6 (amended): when every talk's room is a key of the priority table, the
sorter succeeds and stable-sorts by the composite key (timestamp, room rank):
the output is a permutation of the input, pairwise ordered by the composite
key, pairs already in key order keep their relative order (stability), and
when all timestamps are equal the output ranks are pairwise non-decreasing —
strictly ascending only when no two talks share a room. -/
theorem c6_amended (ts : List Pretalx.Talk)
    (hranks : ∀ t ∈ ts, (Pretalx.rooms_order_lookup t.room).isSome) :
    ∃ out, Pretalx.talksSortE ts = .ok out ∧
      out.Perm ts ∧
      out.Pairwise (fun a b =>
        Pretalx.keyLe (a.date, Pretalx.rankOf a) (b.date, Pretalx.rankOf b) = true) ∧
      (∀ a b : Pretalx.Talk,
        Pretalx.keyLe (a.date, Pretalx.rankOf a) (b.date, Pretalx.rankOf b) = true →
        [a, b].Sublist ts → [a, b].Sublist out) ∧
      ((∀ t ∈ ts, ∀ u ∈ ts, t.date = u.date) →
        out.Pairwise (fun a b => Pretalx.rankOf a ≤ Pretalx.rankOf b)) := by
  have hdec := Pretalx.decorate_eq_map hranks
  refine ⟨((ts.map (fun t => ((t.date, Pretalx.rankOf t), t))).mergeSort
      (fun a b => Pretalx.keyLe a.1 b.1)).map Prod.snd, ?_, ?_, ?_, ?_, ?_⟩
  case _ =>
    unfold Pretalx.talksSortE
    rw [hdec]
  case _ =>
    have h1 := List.mergeSort_perm (ts.map (fun t => ((t.date, Pretalx.rankOf t), t)))
      (fun a b => Pretalx.keyLe a.1 b.1)
    have h2 := h1.map Prod.snd
    rw [Pretalx.map_snd_decorated] at h2
    exact h2
  case _ =>
    have hs := List.sorted_mergeSort
      (fun a b c : (Int × Nat) × Pretalx.Talk => Pretalx.keyLe_trans a.1 b.1 c.1)
      (fun a b : (Int × Nat) × Pretalx.Talk => Pretalx.keyLe_total a.1 b.1)
      (ts.map (fun t => ((t.date, Pretalx.rankOf t), t)))
    rw [List.pairwise_map]
    refine hs.imp_of_mem ?_
    intro a b ha hb hab
    have ha' : a ∈ ts.map (fun t => ((t.date, Pretalx.rankOf t), t)) :=
      List.mem_mergeSort.mp ha
    have hb' : b ∈ ts.map (fun t => ((t.date, Pretalx.rankOf t), t)) :=
      List.mem_mergeSort.mp hb
    obtain ⟨u, -, rfl⟩ := List.mem_map.mp ha'
    obtain ⟨v, -, rfl⟩ := List.mem_map.mp hb'
    exact hab
  case _ =>
    intro a b hab hsub
    have hfsub := List.Sublist.map (fun t : Pretalx.Talk => ((t.date, Pretalx.rankOf t), t)) hsub
    simp only [List.map_cons, List.map_nil] at hfsub
    have hpair := List.pair_sublist_mergeSort
      (fun a b c : (Int × Nat) × Pretalx.Talk => Pretalx.keyLe_trans a.1 b.1 c.1)
      (fun a b : (Int × Nat) × Pretalx.Talk => Pretalx.keyLe_total a.1 b.1)
      hab hfsub
    have hfinal := List.Sublist.map Prod.snd hpair
    simp only [List.map_cons, List.map_nil] at hfinal
    exact hfinal
  case _ =>
    intro hdates
    have hs := List.sorted_mergeSort
      (fun a b c : (Int × Nat) × Pretalx.Talk => Pretalx.keyLe_trans a.1 b.1 c.1)
      (fun a b : (Int × Nat) × Pretalx.Talk => Pretalx.keyLe_total a.1 b.1)
      (ts.map (fun t => ((t.date, Pretalx.rankOf t), t)))
    rw [List.pairwise_map]
    refine hs.imp_of_mem ?_
    intro a b ha hb hab
    have ha' := List.mem_mergeSort.mp ha
    have hb' := List.mem_mergeSort.mp hb
    obtain ⟨u, hu, rfl⟩ := List.mem_map.mp ha'
    obtain ⟨v, hv, rfl⟩ := List.mem_map.mp hb'
    have hd : u.date = v.date := hdates u hu v hv
    unfold Pretalx.keyLe at hab
    simp only [Bool.or_eq_true, Bool.and_eq_true, decide_eq_true_eq] at hab
    dsimp only
    omega

/-- Witness for C6 (amended) at a one-talk list in room HS1. -/
theorem c6_witness :
    ∃ out, Pretalx.talksSortE [⟨0, "A", "HS1 (ZHG 011)", "", "", "", ""⟩] = .ok out ∧
      out.Perm [⟨0, "A", "HS1 (ZHG 011)", "", "", "", ""⟩] ∧
      out.Pairwise (fun a b =>
        Pretalx.keyLe (a.date, Pretalx.rankOf a) (b.date, Pretalx.rankOf b) = true) ∧
      (∀ a b : Pretalx.Talk,
        Pretalx.keyLe (a.date, Pretalx.rankOf a) (b.date, Pretalx.rankOf b) = true →
        [a, b].Sublist [⟨0, "A", "HS1 (ZHG 011)", "", "", "", ""⟩] →
        [a, b].Sublist out) ∧
      ((∀ t ∈ [(⟨0, "A", "HS1 (ZHG 011)", "", "", "", ""⟩ : Pretalx.Talk)],
          ∀ u ∈ [(⟨0, "A", "HS1 (ZHG 011)", "", "", "", ""⟩ : Pretalx.Talk)],
          t.date = u.date) →
        out.Pairwise (fun a b => Pretalx.rankOf a ≤ Pretalx.rankOf b)) :=
  c6_amended [⟨0, "A", "HS1 (ZHG 011)", "", "", "", ""⟩] (by decide)

namespace Pretalx

/-- A session record as read from the schedule export, with the fields the
loader consumes.  The timestamp is modelled already parsed (`strptime` and the
JSON layer are external standard capabilities; a malformed timestamp is a
separate fatal parse failure outside these claims). -/
structure Session where
  type : String
  date : Int
  title : String
  room : String
  abstract : String
  persons : List String
  slug : String

/-- Record construction of the loader (lines 163–176): join the speaker names
with `", "`, decode HTML entities in the abstract (the decoder is an external
standard capability, passed in as `unescape`) and wrap it, copy the other
fields verbatim.  Total: the room-priority table is not consulted here. -/
def mkTalk (unescape : String → String) (s : Session) : Talk :=
  ⟨s.date, s.title, s.room, break_long_linesS (unescape s.abstract),
   String.intercalate ", " s.persons, s.slug, s.type⟩

/-- Python `str` comparison (code-point lexicographic `≤`), used by
`wordlist.sort()`. -/
def lexLe : List Char → List Char → Bool
  | [], _ => true
  | _ :: _, [] => false
  | a :: as, b :: bs => if a < b then true else if b < a then false else lexLe as bs

/-- The per-talk render loop (lines 199–213): dispatch on the format, write
`"<title> <abstract>\n"` in txt mode, render the template in tex mode (the
template engine is external, passed in as `texFn`, receiving the talk and the
previous talk's timestamp `last_timeslot`, initially the empty sentinel
`none`), accumulate extracted words in wordlist mode, and raise on any other
format.  Returns the text written so far and the accumulated word list. -/
def render_loop (texFn : Talk → Option Int → String) (fmt : String) :
    List Talk → Option Int → Except String (String × List (List Char))
  | [], _ => .ok ("", [])
  | t :: rest, last =>
    if fmt = "txt" then
      match render_loop texFn fmt rest (some t.date) with
      | .error e => .error e
      | .ok (out, wl) => .ok (t.title ++ " " ++ t.abstract ++ "\n" ++ out, wl)
    else if fmt = "tex" then
      match render_loop texFn fmt rest (some t.date) with
      | .error e => .error e
      | .ok (out, wl) => .ok (texFn t last ++ out, wl)
    else if fmt = "wordlist" then
      match render_loop texFn fmt rest (some t.date) with
      | .error e => .error e
      | .ok (out, wl) =>
        .ok (out, get_wordlist (t.title ++ " " ++ t.abstract ++ "\n").data ++ wl)
    else .error ("Output format " ++ fmt ++ " is not supported.")

/-- The render phase (lines 199–217): run the loop over the sorted talks and,
in wordlist mode, sort the accumulated words and write them newline-joined. -/
def run_render (texFn : Talk → Option Int → String) (fmt : String)
    (talks : List Talk) : Except String String :=
  match render_loop texFn fmt talks none with
  | .error e => .error e
  | .ok (out, wl) =>
    .ok (if fmt = "wordlist" then
        out ++ String.mk (List.intercalate ['\n'] (wl.mergeSort lexLe))
      else out)

/-- The whole post-parse pipeline: build talk records, sort (the only step
that can hit a missing room), render. -/
def pipeline (unescape : String → String) (texFn : Talk → Option Int → String)
    (fmt : String) (sessions : List Session) : Except String String :=
  match talksSortE (sessions.map (mkTalk unescape)) with
  | .error e => .error e
  | .ok sorted => run_render texFn fmt sorted

end Pretalx

/-- C7: a retained session whose room is not a key of the priority table still
yields a talk record (construction copies the room without consulting the
table), and the failure only occurs at the sort step, from which it propagates
uncaught through the whole pipeline as an unrecoverable error. -/
theorem c7_unknown_room_fatal :
    (∀ (unescape : String → String) (s : Pretalx.Session),
        (Pretalx.mkTalk unescape s).room = s.room) ∧
    (∀ (unescape : String → String) (texFn : Pretalx.Talk → Option Int → String)
        (fmt : String) (sessions : List Pretalx.Session),
      (∃ s ∈ sessions, Pretalx.rooms_order_lookup s.room = none) →
      Pretalx.pipeline unescape texFn fmt sessions
        = .error "KeyError: room not in rooms_order") := by
  refine ⟨fun _ _ => rfl, ?_⟩
  intro unescape texFn fmt sessions h
  obtain ⟨s, hs, hnone⟩ := h
  have hex : ∃ t ∈ sessions.map (Pretalx.mkTalk unescape),
      Pretalx.rooms_order_lookup t.room = none :=
    ⟨Pretalx.mkTalk unescape s, List.mem_map_of_mem _ hs, hnone⟩
  have hdec := Pretalx.decorate_none hex
  unfold Pretalx.pipeline Pretalx.talksSortE
  rw [hdec]

/-- Witness for C7 at a concrete session with the unknown room `"Raum X"`. -/
theorem c7_witness :
    Pretalx.pipeline id (fun _ _ => "") "txt"
        [⟨"Vortrag", 0, "T", "Raum X", "abs", ["P"], "slug-t"⟩]
      = .error "KeyError: room not in rooms_order" :=
  c7_unknown_room_fatal.2 id (fun _ _ => "") "txt"
    [⟨"Vortrag", 0, "T", "Raum X", "abs", ["P"], "slug-t"⟩]
    ⟨⟨"Vortrag", 0, "T", "Raum X", "abs", ["P"], "slug-t"⟩,
      List.mem_cons_self _ _, by decide⟩

/-- C8 counterexample: with an empty talk list the render loop body never
runs, so an unsupported format (here `"foo"`) terminates WITHOUT any error —
the program completes and writes nothing, contradicting "raises ... regardless
of the contents of the talk list". -/
theorem c8_counterexample :
    Pretalx.pipeline id (fun _ _ => "") "foo" [] = .ok "" := by
  unfold Pretalx.pipeline Pretalx.talksSortE
  rw [show Pretalx.decorate (([] : List Pretalx.Session).map (Pretalx.mkTalk id))
    = some [] from rfl]
  dsimp only
  rw [List.mergeSort_nil]
  rfl

/-- C8 (amended): when the requested format is none of `"tex"`, `"txt"`,
`"wordlist"` and the talk list is non-empty, the render dispatch raises the
explicit fatal error on the first talk; with an empty talk list the loop body
never executes and no error is raised. -/
theorem c8_amended (texFn : Pretalx.Talk → Option Int → String) (fmt : String)
    (h1 : fmt ≠ "txt") (h2 : fmt ≠ "tex") (h3 : fmt ≠ "wordlist")
    (t : Pretalx.Talk) (rest : List Pretalx.Talk) :
    Pretalx.run_render texFn fmt (t :: rest)
      = .error ("Output format " ++ fmt ++ " is not supported.") := by
  unfold Pretalx.run_render Pretalx.render_loop
  rw [if_neg h1, if_neg h2, if_neg h3]

/-- Witness for C8 (amended) at format `"foo"` and a one-talk list. -/
theorem c8_witness :
    Pretalx.run_render (fun _ _ => "") "foo" [⟨0, "T", "R", "A", "S", "L", "Y"⟩]
      = .error ("Output format " ++ "foo" ++ " is not supported.") :=
  c8_amended (fun _ _ => "") "foo" (by decide) (by decide) (by decide)
    ⟨0, "T", "R", "A", "S", "L", "Y"⟩ []

namespace Pretalx

theorem get_wordlist_mem_valid {text w : List Char} (hw : w ∈ get_wordlist text) :
    2 ≤ w.length ∧ ∀ c ∈ w, isWordChar c = true := by
  unfold get_wordlist at hw
  obtain ⟨w0, _, h0⟩ := List.mem_filterMap.mp hw
  exact processWord_valid h0

theorem lexLe_total : ∀ (a b : List Char), lexLe a b || lexLe b a := by
  intro a
  induction a with
  | nil => intro b; simp [lexLe]
  | cons x as ih =>
    intro b
    cases b with
    | nil => simp [lexLe]
    | cons y bs =>
      by_cases hxy : x < y
      · simp [lexLe, hxy]
      · by_cases hyx : y < x
        · simp [lexLe, hxy, hyx]
        · simpa [lexLe, hxy, hyx] using ih bs

theorem lexLe_trans : ∀ (a b c : List Char), lexLe a b → lexLe b c → lexLe a c := by
  intro a
  induction a with
  | nil => intro b c _ _; simp [lexLe]
  | cons x as ih =>
    intro b c hab hbc
    cases b with
    | nil => simp [lexLe] at hab
    | cons y bs =>
      cases c with
      | nil => simp [lexLe] at hbc
      | cons z cs =>
        by_cases hxy : x < y
        · by_cases hyz : y < z
          · simp [lexLe, lt_trans hxy hyz]
          · by_cases hzy : z < y
            · simp [lexLe, hyz, hzy] at hbc
            · have heq : y = z := le_antisymm (not_lt.mp hzy) (not_lt.mp hyz)
              simp [lexLe, heq ▸ hxy]
        · by_cases hyx : y < x
          · simp [lexLe, hxy, hyx] at hab
          · have heq : x = y := le_antisymm (not_lt.mp hyx) (not_lt.mp hxy)
            subst heq
            simp only [lexLe, if_neg (lt_irrefl x)] at hab
            by_cases hxz : x < z
            · simp [lexLe, hxz]
            · by_cases hzx : z < x
              · simp [lexLe, hxz, hzx] at hbc
              · simp only [lexLe, if_neg hxz, if_neg hzx] at hbc ⊢
                exact ih bs cs hab hbc

theorem render_loop_wordlist (texFn : Talk → Option Int → String) :
    ∀ (talks : List Talk) (last : Option Int),
      render_loop texFn "wordlist" talks last
        = .ok ("", talks.flatMap (fun t =>
            get_wordlist (t.title ++ " " ++ t.abstract ++ "\n").data)) := by
  intro talks
  induction talks with
  | nil => intro _; rfl
  | cons t rest ih =>
    intro last
    unfold render_loop
    rw [if_neg (by decide : ¬ ("wordlist" : String) = "txt"),
        if_neg (by decide : ¬ ("wordlist" : String) = "tex"),
        if_pos rfl, ih (some t.date)]
    rw [List.flatMap_cons]

theorem intercalate_nl_single (w : List Char) : List.intercalate ['\n'] [w] = w := by
  simp [List.intercalate]

theorem intercalate_nl_cons2 (w y : List Char) (ws : List (List Char)) :
    List.intercalate ['\n'] (w :: y :: ws)
      = w ++ '\n' :: List.intercalate ['\n'] (y :: ws) := by
  simp [List.intercalate, List.intersperse]

theorem intercalate_no_trailing_nl :
    ∀ (ws : List (List Char)), (∀ w ∈ ws, w ≠ [] ∧ '\n' ∉ w) →
      (List.intercalate ['\n'] ws).getLast? ≠ some '\n' := by
  intro ws
  induction ws with
  | nil => intro _ h; simp [List.intercalate] at h
  | cons w ws ih =>
    intro h
    cases ws with
    | nil =>
      rw [intercalate_nl_single]
      intro hlast
      have hc := List.mem_of_getLast?_eq_some hlast
      exact (h w (List.mem_cons_self w [])).2 hc
    | cons y ws' =>
      rw [intercalate_nl_cons2]
      have hih := ih (fun u hu => h u (List.mem_cons_of_mem w hu))
      have hyne : List.intercalate ['\n'] (y :: ws') ≠ [] := by
        intro he
        rw [he] at hih
        cases ws' with
        | nil =>
          rw [intercalate_nl_single] at he
          exact (h y (List.mem_cons_of_mem w (List.mem_cons_self y []))).1 he
        | cons z ws'' =>
          rw [intercalate_nl_cons2] at he
          rcases List.append_eq_nil.mp he with ⟨-, he2⟩
          cases he2
      obtain ⟨c, hc⟩ := Option.isSome_iff_exists.mp
        (List.getLast?_isSome.mpr hyne)
      intro hlast
      rw [List.getLast?_append, show ('\n' :: List.intercalate ['\n'] (y :: ws'))
            = ['\n'] ++ List.intercalate ['\n'] (y :: ws') from rfl,
        List.getLast?_append, hc] at hlast
      simp only [Option.or_some] at hlast
      exact hih (hc.trans hlast)

end Pretalx

/-- C9: in wordlist mode the program writes exactly the newline-joined,
lexicographically sorted concatenation of the words extracted from each talk's
`"<title> <abstract>\n"` string (duplicates retained: the output is a
permutation of the full concatenation), and the output has no trailing
newline. -/
theorem c9_wordlist_output (texFn : Pretalx.Talk → Option Int → String)
    (talks : List Pretalx.Talk) :
    ∃ ws : List (List Char),
      Pretalx.run_render texFn "wordlist" talks
        = .ok (String.mk (List.intercalate ['\n'] ws)) ∧
      ws.Perm (talks.flatMap (fun t =>
        Pretalx.get_wordlist (t.title ++ " " ++ t.abstract ++ "\n").data)) ∧
      ws.Pairwise (fun a b => Pretalx.lexLe a b = true) ∧
      (List.intercalate ['\n'] ws).getLast? ≠ some '\n' := by
  refine ⟨(talks.flatMap (fun t =>
      Pretalx.get_wordlist (t.title ++ " " ++ t.abstract ++ "\n").data)).mergeSort
        Pretalx.lexLe, ?_, List.mergeSort_perm _ _, ?_, ?_⟩
  · unfold Pretalx.run_render
    rw [Pretalx.render_loop_wordlist]
    rfl
  · exact List.sorted_mergeSort
      (fun a b c => Pretalx.lexLe_trans a b c)
      (fun a b => Pretalx.lexLe_total a b) _
  · apply Pretalx.intercalate_no_trailing_nl
    intro w hw
    have hw' := List.mem_mergeSort.mp hw
    obtain ⟨t, -, hmem⟩ := List.mem_flatMap.mp hw'
    obtain ⟨hlen, hvalid⟩ := Pretalx.get_wordlist_mem_valid hmem
    constructor
    · intro he
      rw [he] at hlen
      simp at hlen
    · intro hnl
      have := hvalid '\n' hnl
      simp [Pretalx.isWordChar] at this
